import Mathlib

/-!
Verification of the nlopt-wasm solver kernels (global, local, shortrow
sampling) of the knitsketching repository.  The C++ code manipulates
`double` vectors; the embedding models them as functions `ℕ → ℚ`
(exact arithmetic), with explicit sizes, and models each imperative
loop as a `List.foldl` over the loop's iteration space.  In-place
vector writes become `Function.update`.
-/

namespace Knit

/-- Folding additions over a list equals the initial value plus the list sum. -/
lemma foldl_add_map {α : Type} (f : α → ℚ) :
    ∀ (l : List α) (s0 : ℚ),
      l.foldl (fun s x => s + f x) s0 = s0 + (l.map f).sum := by
  intro l
  induction l with
  | nil => intro s0; simp
  | cons a t ih =>
    intro s0
    simp [List.foldl_cons, ih, add_assoc]

/-- Folding subtractions over a list equals the initial value minus the list sum. -/
lemma foldl_sub_map {α : Type} (f : α → ℚ) :
    ∀ (l : List α) (s0 : ℚ),
      l.foldl (fun s x => s - f x) s0 = s0 - (l.map f).sum := by
  intro l
  induction l with
  | nil => intro s0; simp
  | cons a t ih =>
    intro s0
    simp [List.foldl_cons, ih, sub_sub]

/-- In-place accumulation loop: for each index `idx` of `idxs`,
add `c` to entry `A idx` of the array `g`. -/
def accumList (A : ℕ → ℕ) (c : ℚ) (idxs : List ℕ) (g : ℕ → ℚ) : ℕ → ℚ :=
  idxs.foldl (fun g idx => Function.update g (A idx) (g (A idx) + c)) g

/-- Pointwise effect of `accumList`: each entry grows by `c` times the
number of indices mapped onto it. -/
lemma accumList_apply (A : ℕ → ℕ) (c : ℚ) :
    ∀ (idxs : List ℕ) (g : ℕ → ℚ) (j : ℕ),
      accumList A c idxs g j
        = g j + c * (idxs.countP (fun x => A x == j) : ℕ) := by
  intro idxs
  induction idxs with
  | nil => intro g j; simp [accumList]
  | cons p t ih =>
    intro g j
    have hstep : accumList A c (p :: t) g
        = accumList A c t (Function.update g (A p) (g (A p) + c)) := rfl
    rw [hstep, ih, List.countP_cons]
    by_cases h : A p = j
    · subst h
      have hb : (A p == A p) = true := by simp
      simp only [Function.update_same, hb, if_pos]
      push_cast
      ring
    · have hb : (A p == j) = false := by simp [h]
      have hne : j ≠ A p := fun hj => h hj.symm
      rw [Function.update_noteq hne]
      simp [hb]

/-- In-place overwrite loop: for each index of `idxs`, set entry `idx` of `g` to `v`. -/
def setList (v : ℚ) (idxs : List ℕ) (g : ℕ → ℚ) : ℕ → ℚ :=
  idxs.foldl (fun g idx => Function.update g idx v) g

/-- Pointwise effect of `setList`: entries listed in `idxs` become `v`, the rest
keep their previous value. -/
lemma setList_apply (v : ℚ) :
    ∀ (idxs : List ℕ) (g : ℕ → ℚ) (j : ℕ),
      setList v idxs g j = if j ∈ idxs then v else g j := by
  intro idxs
  induction idxs with
  | nil => intro g j; simp [setList]
  | cons p t ih =>
    intro g j
    have hstep : setList v (p :: t) g = setList v t (Function.update g p v) := rfl
    rw [hstep, ih]
    by_cases ht : j ∈ t
    · simp [ht]
    · by_cases hp : j = p
      · subst hp; simp [ht]
      · rw [Function.update_noteq hp]
        simp [ht, hp]

/-- Decomposition of a fold whose state is a pair of an additively-updated
scalar and an independently evolving second component. -/
lemma foldl_pair {α σ : Type} (step : ℚ × σ → α → ℚ × σ) (f : α → ℚ) (G : σ → α → σ)
    (hstep : ∀ e g a, step (e, g) a = (e + f a, G g a)) :
    ∀ (l : List α) (e0 : ℚ) (g0 : σ),
      l.foldl step (e0, g0) = (e0 + (l.map f).sum, l.foldl G g0) := by
  intro l
  induction l with
  | nil => intro e0 g0; simp
  | cons a t ih =>
    intro e0 g0
    simp only [List.foldl_cons, hstep, ih, List.map_cons, List.sum_cons]
    rw [add_assoc]

/-- Decomposition of an array-updating fold whose step adds a
state-independent amount to each entry. -/
lemma foldl_addfun {α : Type} (G : (ℕ → ℚ) → α → (ℕ → ℚ)) (h : α → ℕ → ℚ)
    (hG : ∀ g a i, G g a i = g i + h a i) :
    ∀ (l : List α) (g : ℕ → ℚ) (i : ℕ),
      l.foldl G g i = g i + (l.map (fun a => h a i)).sum := by
  intro l
  induction l with
  | nil => intro g i; simp
  | cons a t ih =>
    intro g i
    simp only [List.foldl_cons, List.map_cons, List.sum_cons]
    rw [ih, hG, add_assoc]

/-- Bridge between a sum over `List.range` and the matching `Finset.range` sum. -/
lemma list_range_map_sum (f : ℕ → ℚ) :
    ∀ n : ℕ, ((List.range n).map f).sum = ∑ i ∈ Finset.range n, f i := by
  intro n
  induction n with
  | zero => simp
  | succ n ih =>
    rw [List.range_succ]
    simp [ih, Finset.sum_range_succ]

/-- Sum of an indicator-count against an array: counting how many elements of
`l` are mapped by `A` onto each cell of `0..R` and weighting by `r` recovers
the plain sum of `r ∘ A` over `l`, provided `A` maps `l` into `0..R`. -/
lemma count_sum (A : ℕ → ℕ) (r : ℕ → ℚ) (R : ℕ) :
    ∀ l : List ℕ, (∀ p ∈ l, A p < R) →
      ∑ j ∈ Finset.range R, (l.countP (fun x => A x == j) : ℚ) * r j
        = (l.map (fun p => r (A p))).sum := by
  intro l
  induction l with
  | nil => intro _; simp
  | cons p t ih =>
    intro hl
    have hp : A p ∈ Finset.range R :=
      Finset.mem_range.mpr (hl p (List.mem_cons_self p t))
    have ht : ∀ q ∈ t, A q < R := fun q hq => hl q (List.mem_cons_of_mem p hq)
    have hsplit : ∀ j ∈ Finset.range R,
        ((p :: t).countP (fun x => A x == j) : ℚ) * r j
          = (t.countP (fun x => A x == j) : ℚ) * r j + (if A p = j then r j else 0) := by
      intro j _
      rw [List.countP_cons]
      by_cases h : A p = j
      · have hb : (A p == j) = true := by simp [h]
        simp only [hb, if_pos, if_true, h]
        push_cast
        simp [add_mul]
      · have hb : (A p == j) = false := by simp [h]
        simp [hb, h]
    rw [Finset.sum_congr rfl hsplit, Finset.sum_add_distrib, ih ht,
        Finset.sum_ite_eq (Finset.range R) (A p) r, if_pos hp,
        List.map_cons, List.sum_cons]
    exact add_comm _ _

/-! ### Global solver data model (global_sampling.cpp) -/

/-- Graph node of the global solver: an index, a simple/interface flag and
the ordered multisets of input and output edge indices. -/
structure Node where
  index : ℕ
  simple : Bool
  inp_edges : List ℕ
  out_edges : List ℕ
deriving DecidableEq

/-- Whether a node carries an interface (flow conservation) constraint:
it has inputs, outputs, and is not simple. -/
def Node.has_interface_constraint (n : Node) : Bool :=
  !n.inp_edges.isEmpty && !n.out_edges.isEmpty && !n.simple

/-- Whether a node carries a range constraint: exactly the simple flag. -/
def Node.has_range_constraint (n : Node) : Bool :=
  n.simple

/-- First input edge of a node (the C++ accesses `inp_edges[0]`). -/
def Node.inp (n : Node) : ℕ := n.inp_edges.headD 0

/-- First output edge of a node (the C++ accesses `out_edges[0]`). -/
def Node.out (n : Node) : ℕ := n.out_edges.headD 0

/-- Variable alias of the global solver: the aliased variable `index` is
rewritten as the sum of the `pos` entries minus the sum of the `neg` entries. -/
structure VarAlias where
  index : ℕ
  pos : List ℕ
  neg : List ℕ
  min_bound : ℚ
deriving DecidableEq

/-- An alias is empty when it has neither positive nor negative terms;
an empty alias means the variable survives into the reduced problem. -/
def VarAlias.empty (a : VarAlias) : Bool :=
  a.pos.isEmpty && a.neg.isEmpty

/-- An alias is valid when a negative term implies a positive one. -/
def VarAlias.is_valid (a : VarAlias) : Bool :=
  a.neg.isEmpty || !a.pos.isEmpty

/-- An alias needs an explicit inequality constraint when it has more than
one negative term. -/
def VarAlias.has_constraint (a : VarAlias) : Bool :=
  decide (1 < a.neg.length)

/-- Default-initialized alias for slot `i`: the reset loop of
`compute_aliases` assigns `aliases[i].index = i` with no terms. -/
def initAlias (i : ℕ) : VarAlias := ⟨i, [], [], 0⟩

/-- Alias stored at slot `i` of the alias table. -/
def aliasAt (aliases : List VarAlias) (i : ℕ) : VarAlias :=
  aliases.getD i (initAlias i)

/-- Gather operation `from_reduced_to_aliases`: recover the full variable
vector from the reduced one, summing reduced entries according to each
alias's `pos`/`neg` lists through the `aliasToRed` map `A`. -/
def from_reduced_to_aliases (aliases : List VarAlias) (A : ℕ → ℕ)
    (rns : ℕ → ℚ) : ℕ → ℚ := fun i =>
  let a := aliasAt aliases i
  if a.empty then rns (A i)
  else a.neg.foldl (fun v k => v - rns (A k))
    (a.pos.foldl (fun v j => v + rns (A j)) 0)

/-- Body of the scatter loop of `from_aliases_to_reduced` for one full index. -/
def scatterStep (aliases : List VarAlias) (A : ℕ → ℕ) (ns : ℕ → ℚ)
    (rg : ℕ → ℚ) (i : ℕ) : ℕ → ℚ :=
  let a := aliasAt aliases i
  if a.empty then Function.update rg (A i) (rg (A i) + ns i)
  else accumList A (-(ns i)) a.neg (accumList A (ns i) a.pos rg)

/-- Scatter operation `from_aliases_to_reduced`: push a full-space vector
(e.g. a gradient) down to the reduced space, zeroing the output first and
accumulating through the `aliasToRed` map `A`.  `E` is the full size. -/
def from_aliases_to_reduced (aliases : List VarAlias) (A : ℕ → ℕ)
    (ns : ℕ → ℚ) (E : ℕ) : ℕ → ℚ :=
  (List.range E).foldl (scatterStep aliases A ns) (fun _ => 0)

/-- Direct copy `set_reduced_from_aliases`: reduced entry `i` is the full
entry at `redToAlias i`. -/
def set_reduced_from_aliases (redToAlias : List ℕ) (ns : ℕ → ℚ) : ℕ → ℚ :=
  fun i => ns (redToAlias.getD i 0)

/-- Mapping construction at the end of `compute_aliases`: walk the alias
table in index order keeping the running count `r` of surviving variables;
an empty alias appends its index to `redToAlias` and receives reduced index
`r`, a non-empty alias is marked with no reduced index (`none` models the
`SIZE_MAX` sentinel). -/
def build_red_maps (aliases : List VarAlias) (r : ℕ) : List ℕ × List (Option ℕ) :=
  match aliases with
  | [] => ([], [])
  | a :: rest =>
    if a.empty then
      let p := build_red_maps rest (r + 1)
      (a.index :: p.1, some r :: p.2)
    else
      let p := build_red_maps rest r
      (p.1, none :: p.2)

/-- Reduced problem size: the number of surviving (empty-alias) variables. -/
def redSize (aliases : List VarAlias) : ℕ :=
  (build_red_maps aliases 0).1.length

/-- The `aliasToRed` map as a total function, defaulting to `0` where the
C++ stores the unused `SIZE_MAX` sentinel or out of range. -/
def aliasToRedFun (aliases : List VarAlias) : ℕ → ℕ :=
  fun i => ((build_red_maps aliases 0).2.getD i none).getD 0

/-- The surviving-variable count produced by `build_red_maps` is the number
of empty aliases, independently of the starting counter. -/
lemma build_red_maps_length (aliases : List VarAlias) :
    ∀ r : ℕ, (build_red_maps aliases r).1.length
      = aliases.countP (fun a => a.empty) := by
  induction aliases with
  | nil => intro r; simp [build_red_maps]
  | cons a rest ih =>
    intro r
    rw [List.countP_cons]
    by_cases h : a.empty
    · simp [build_red_maps, h, ih]
    · simp [build_red_maps, h, ih]

/-- Any reduced index recorded by `build_red_maps` with counter `r` lies in
the half-open interval from `r` to `r` plus the number of empty aliases. -/
lemma build_red_maps_entry_lt (aliases : List VarAlias) :
    ∀ (r i v : ℕ), (build_red_maps aliases r).2.getD i none = some v →
      r ≤ v ∧ v < r + aliases.countP (fun a => a.empty) := by
  induction aliases with
  | nil => intro r i v h; simp [build_red_maps] at h
  | cons a rest ih =>
    intro r i v h
    rw [List.countP_cons]
    by_cases ha : a.empty
    · simp only [build_red_maps, ha, if_pos, if_true] at h
      match i with
      | 0 =>
        simp at h
        subst h
        simp [ha]
      | i + 1 =>
        simp only [List.getD, List.get?_cons_succ] at h
        have := ih (r + 1) i v h
        simp [ha]
        omega
    · simp only [build_red_maps, ha, if_neg, Bool.false_eq_true, if_false] at h
      match i with
      | 0 => simp at h
      | i + 1 =>
        simp only [List.getD, List.get?_cons_succ] at h
        have := ih r i v h
        simp [ha]
        omega

/-- A slot holding an empty alias receives an actual reduced index. -/
lemma build_red_maps_entry_some (aliases : List VarAlias) :
    ∀ (r i : ℕ) (hi : i < aliases.length), (aliases.get ⟨i, hi⟩).empty = true →
      ∃ v, (build_red_maps aliases r).2.getD i none = some v := by
  induction aliases with
  | nil => intro r i hi; simp at hi
  | cons a rest ih =>
    intro r i hi he
    by_cases ha : a.empty
    · match i with
      | 0 => exact ⟨r, by simp [build_red_maps, ha]⟩
      | i + 1 =>
        have hi' : i < rest.length := by simpa using hi
        obtain ⟨v, hv⟩ := ih (r + 1) i hi' (by simpa using he)
        exact ⟨v, by simpa [build_red_maps, ha, List.getD] using hv⟩
    · match i with
      | 0 => simp at he; exact absurd he ha
      | i + 1 =>
        have hi' : i < rest.length := by simpa using hi
        obtain ⟨v, hv⟩ := ih r i hi' (by simpa using he)
        exact ⟨v, by simpa [build_red_maps, ha, List.getD] using hv⟩

/-- For a slot holding an empty alias, the derived `aliasToRed` value is a
genuine reduced index: it is below the reduced size. -/
lemma aliasToRedFun_lt (aliases : List VarAlias) (i : ℕ) (hi : i < aliases.length)
    (he : (aliases.get ⟨i, hi⟩).empty = true) :
    aliasToRedFun aliases i < redSize aliases := by
  obtain ⟨v, hv⟩ := build_red_maps_entry_some aliases 0 i hi he
  have hlt := build_red_maps_entry_lt aliases 0 i v hv
  rw [redSize, build_red_maps_length]
  rw [aliasToRedFun, hv]
  simpa using hlt.2

/-- Reading the alias table at an in-range slot gives the stored alias. -/
lemma aliasAt_lt (aliases : List VarAlias) (i : ℕ) (hi : i < aliases.length) :
    aliasAt aliases i = aliases.get ⟨i, hi⟩ :=
  List.getD_eq_get aliases (initAlias i) hi

/-- An in-range slot of the alias table is a member of the table. -/
lemma aliasAt_mem (aliases : List VarAlias) (i : ℕ) (hi : i < aliases.length) :
    aliasAt aliases i ∈ aliases := by
  rw [aliasAt_lt aliases i hi]
  exact aliases.get_mem i hi

/-- Variant of `aliasToRedFun_lt` phrased through `aliasAt`. -/
lemma aliasToRedFun_lt_of_empty (aliases : List VarAlias) (j : ℕ)
    (hj : j < aliases.length) (he : (aliasAt aliases j).empty = true) :
    aliasToRedFun aliases j < redSize aliases := by
  refine aliasToRedFun_lt aliases j hj ?_
  rw [← aliasAt_lt aliases j hj]
  exact he

/-- Coefficient of entry `i` of a full-space vector inside reduced cell `j`
after scattering: the matrix of the linear scatter map. -/
def redCoef (aliases : List VarAlias) (A : ℕ → ℕ) (g : ℕ → ℚ) (i j : ℕ) : ℚ :=
  if (aliasAt aliases i).empty then (if A i = j then g i else 0)
  else g i * (((aliasAt aliases i).pos.countP (fun x => A x == j) : ℚ)
    - ((aliasAt aliases i).neg.countP (fun x => A x == j) : ℚ))

/-- One scatter step adds the coefficient of full index `i` to each cell. -/
lemma scatterStep_apply (aliases : List VarAlias) (A : ℕ → ℕ) (g : ℕ → ℚ) :
    ∀ (rg : ℕ → ℚ) (i j : ℕ),
      scatterStep aliases A g rg i j = rg j + redCoef aliases A g i j := by
  intro rg i j
  by_cases he : (aliasAt aliases i).empty
  · simp only [scatterStep, redCoef, he, if_pos, if_true]
    by_cases hj : A i = j
    · subst hj
      rw [Function.update_same, if_pos rfl]
    · rw [Function.update_noteq (fun hh => hj hh.symm), if_neg hj, add_zero]
  · simp only [scatterStep, redCoef, he, Bool.false_eq_true, if_false]
    rw [accumList_apply, accumList_apply]
    ring

/-- Closed form of the scatter: each reduced cell is the sum of the
coefficients of all full indices. -/
lemma from_aliases_to_reduced_apply (aliases : List VarAlias) (A : ℕ → ℕ)
    (g : ℕ → ℚ) (E j : ℕ) :
    from_aliases_to_reduced aliases A g E j
      = ∑ i ∈ Finset.range E, redCoef aliases A g i j := by
  rw [from_aliases_to_reduced,
    foldl_addfun (scatterStep aliases A g) (redCoef aliases A g)
      (scatterStep_apply aliases A g) (List.range E) (fun _ => 0) j,
    list_range_map_sum]
  simp

/-- Closed form of the gather at a non-empty alias slot. -/
lemma from_reduced_to_aliases_of_not_empty (aliases : List VarAlias) (A : ℕ → ℕ)
    (r : ℕ → ℚ) (i : ℕ) (he : ¬ (aliasAt aliases i).empty) :
    from_reduced_to_aliases aliases A r i
      = ((aliasAt aliases i).pos.map (fun p => r (A p))).sum
        - ((aliasAt aliases i).neg.map (fun k => r (A k))).sum := by
  simp only [from_reduced_to_aliases, he, Bool.false_eq_true, if_false]
  rw [foldl_sub_map, foldl_add_map]
  ring

/-- C1: over any aliasing state satisfying the validity precondition (every
index referenced in a `pos`/`neg` list is in range and itself unaliased),
the scatter `from_aliases_to_reduced` is the exact linear transpose of the
gather `from_reduced_to_aliases`: for every full-space vector `g` and
reduced vector `r`, the pairing of `g` with the gathered variables equals
the pairing of the scattered vector with `r`. -/
theorem reduction_transpose (aliases : List VarAlias)
    (hv : ∀ a ∈ aliases, ∀ j ∈ a.pos ++ a.neg,
        j < aliases.length ∧ (aliasAt aliases j).empty = true)
    (g r : ℕ → ℚ) :
    ∑ i ∈ Finset.range aliases.length,
        g i * from_reduced_to_aliases aliases (aliasToRedFun aliases) r i
      = ∑ j ∈ Finset.range (redSize aliases),
          from_aliases_to_reduced aliases (aliasToRedFun aliases) g aliases.length j
            * r j := by
  have hrhs : ∑ j ∈ Finset.range (redSize aliases),
      from_aliases_to_reduced aliases (aliasToRedFun aliases) g aliases.length j * r j
      = ∑ i ∈ Finset.range aliases.length,
          ∑ j ∈ Finset.range (redSize aliases),
            redCoef aliases (aliasToRedFun aliases) g i j * r j := by
    rw [Finset.sum_comm]
    refine Finset.sum_congr rfl ?_
    intro j _
    rw [from_aliases_to_reduced_apply, Finset.sum_mul]
  rw [hrhs]
  refine Finset.sum_congr rfl ?_
  intro i hi
  have hiE : i < aliases.length := Finset.mem_range.mp hi
  by_cases he : (aliasAt aliases i).empty
  · -- surviving variable: single matching reduced cell
    have hlt : aliasToRedFun aliases i ∈ Finset.range (redSize aliases) :=
      Finset.mem_range.mpr (aliasToRedFun_lt_of_empty aliases i hiE he)
    have hx : from_reduced_to_aliases aliases (aliasToRedFun aliases) r i
        = r (aliasToRedFun aliases i) := by
      simp only [from_reduced_to_aliases, he, if_pos, if_true]
    have hc : ∀ j, redCoef aliases (aliasToRedFun aliases) g i j * r j
        = if aliasToRedFun aliases i = j then g i * r j else 0 := by
      intro j
      simp only [redCoef, he, if_pos, if_true, ite_mul, zero_mul]
    rw [hx, Finset.sum_congr rfl (fun j _ => hc j),
      Finset.sum_ite_eq (Finset.range (redSize aliases)) (aliasToRedFun aliases i)
        (fun j => g i * r j),
      if_pos hlt]
  · -- aliased variable: signed count of its pos/neg terms
    have hmem := aliasAt_mem aliases i hiE
    have hposR : ∀ p ∈ (aliasAt aliases i).pos,
        aliasToRedFun aliases p < redSize aliases := by
      intro p hp
      have hm := hv (aliasAt aliases i) hmem p (List.mem_append_left _ hp)
      exact aliasToRedFun_lt_of_empty aliases p hm.1 hm.2
    have hnegR : ∀ k ∈ (aliasAt aliases i).neg,
        aliasToRedFun aliases k < redSize aliases := by
      intro k hk
      have hm := hv (aliasAt aliases i) hmem k (List.mem_append_right _ hk)
      exact aliasToRedFun_lt_of_empty aliases k hm.1 hm.2
    have hc : ∀ j, redCoef aliases (aliasToRedFun aliases) g i j * r j
        = g i * (((aliasAt aliases i).pos.countP
              (fun x => aliasToRedFun aliases x == j) : ℚ) * r j)
          - g i * (((aliasAt aliases i).neg.countP
              (fun x => aliasToRedFun aliases x == j) : ℚ) * r j) := by
      intro j
      simp only [redCoef, he, Bool.false_eq_true, if_false]
      ring
    rw [from_reduced_to_aliases_of_not_empty aliases _ r i he,
      Finset.sum_congr rfl (fun j _ => hc j), Finset.sum_sub_distrib,
      ← Finset.mul_sum, ← Finset.mul_sum,
      count_sum (aliasToRedFun aliases) r (redSize aliases)
        (aliasAt aliases i).pos hposR,
      count_sum (aliasToRedFun aliases) r (redSize aliases)
        (aliasAt aliases i).neg hnegR]
    ring

/-- Concrete instance of the C1 transpose identity: three variables where
variable 2 is aliased to the sum of variables 0 and 1. -/
theorem reduction_transpose_witness :
    (∀ a ∈ [initAlias 0, initAlias 1, (⟨2, [0, 1], [], 0⟩ : VarAlias)],
      ∀ j ∈ a.pos ++ a.neg,
        j < ([initAlias 0, initAlias 1, (⟨2, [0, 1], [], 0⟩ : VarAlias)]).length
          ∧ (aliasAt [initAlias 0, initAlias 1, (⟨2, [0, 1], [], 0⟩ : VarAlias)] j).empty
              = true)
    ∧ ∑ i ∈ Finset.range ([initAlias 0, initAlias 1,
          (⟨2, [0, 1], [], 0⟩ : VarAlias)]).length,
        (fun k => (k : ℚ) + 1) i
          * from_reduced_to_aliases [initAlias 0, initAlias 1,
              (⟨2, [0, 1], [], 0⟩ : VarAlias)]
            (aliasToRedFun [initAlias 0, initAlias 1, (⟨2, [0, 1], [], 0⟩ : VarAlias)])
            (fun k => (k : ℚ) + 2) i
      = ∑ j ∈ Finset.range (redSize [initAlias 0, initAlias 1,
            (⟨2, [0, 1], [], 0⟩ : VarAlias)]),
          from_aliases_to_reduced [initAlias 0, initAlias 1,
              (⟨2, [0, 1], [], 0⟩ : VarAlias)]
            (aliasToRedFun [initAlias 0, initAlias 1, (⟨2, [0, 1], [], 0⟩ : VarAlias)])
            (fun k => (k : ℚ) + 1)
            ([initAlias 0, initAlias 1, (⟨2, [0, 1], [], 0⟩ : VarAlias)]).length j
            * (fun k => (k : ℚ) + 2) j :=
  ⟨by decide, reduction_transpose _ (by decide) _ _⟩


/-! ### Global objective (global_sampling) -/

/-- Squared loss kernel shared by all three solvers. -/
def loss (x : ℚ) : ℚ := x * x

lemma loss_eq_sq (x : ℚ) : loss x = x ^ 2 := by rw [loss, sq]

/-- Sum of the variable values over a node's input edges. -/
def nodeInp (ns : ℕ → ℚ) (n : Node) : ℚ :=
  n.inp_edges.foldl (fun s idx => s + ns idx) 0

/-- Sum of the variable values over a node's output edges. -/
def nodeOut (ns : ℕ → ℚ) (n : Node) : ℚ :=
  n.out_edges.foldl (fun s idx => s + ns idx) 0

/-- Flow imbalance of a node: inputs minus outputs. -/
def nodeDiff (ns : ℕ → ℚ) (n : Node) : ℚ := nodeInp ns n - nodeOut ns n

lemma nodeInp_eq (ns : ℕ → ℚ) (n : Node) :
    nodeInp ns n = (n.inp_edges.map ns).sum := by
  rw [nodeInp, foldl_add_map]; simp

lemma nodeOut_eq (ns : ℕ → ℚ) (n : Node) :
    nodeOut ns n = (n.out_edges.map ns).sum := by
  rw [nodeOut, foldl_add_map]; simp

/-- A node contributes to the simplicity term when it is simple and has at
least one input and one output edge. -/
def nodeActive (n : Node) : Bool :=
  n.simple && !n.inp_edges.isEmpty && !n.out_edges.isEmpty

/-- Body of the course-accuracy loop of `global_sampling`: accumulate the
squared error and overwrite the gradient entry. -/
def courseStep (w_c : ℚ) (cdata ns : ℕ → ℚ) (hasGrad : Bool) :
    ℚ × (ℕ → ℚ) → ℕ → ℚ × (ℕ → ℚ) := fun p i =>
  (p.1 + loss (ns i - cdata i),
   if hasGrad then Function.update p.2 i (w_c * 2 * (ns i - cdata i)) else p.2)

/-- Body of the node loop of `global_sampling`: for an active node,
accumulate the squared imbalance and add the signed gradient term on its
input and output edges. -/
def nodeStep (w_s : ℚ) (ns : ℕ → ℚ) (hasGrad : Bool) :
    ℚ × (ℕ → ℚ) → Node → ℚ × (ℕ → ℚ) := fun p n =>
  if nodeActive n then
    (p.1 + loss |nodeDiff ns n|,
     if hasGrad then
       accumList id (-(w_s * 2 * nodeDiff ns n)) n.out_edges
         (accumList id (w_s * 2 * nodeDiff ns n) n.inp_edges p.2)
     else p.2)
  else p

/-- Global objective `global_sampling`: course accuracy plus node
imbalance, with the analytic gradient written when `hasGrad`.  Returns the
objective value and the final gradient array. -/
def global_sampling (w_c w_s : ℚ) (cdata : ℕ → ℚ) (E : ℕ) (nodes : List Node)
    (ns : ℕ → ℚ) (grad0 : ℕ → ℚ) (hasGrad : Bool) : ℚ × (ℕ → ℚ) :=
  let p1 := (List.range E).foldl (courseStep w_c cdata ns hasGrad) (0, grad0)
  let p2 := nodes.foldl (nodeStep w_s ns hasGrad) (0, p1.2)
  (p1.1 * w_c + p2.1 * w_s, p2.2)

/-- Gradient overwrite loop over a range: the last write to each cell wins,
and every cell below the bound is written exactly once. -/
lemma course_grad_apply (v : ℕ → ℚ) :
    ∀ (E : ℕ) (g0 : ℕ → ℚ) (i : ℕ),
      (List.range E).foldl (fun g i => Function.update g i (v i)) g0 i
        = if i < E then v i else g0 i := by
  intro E
  induction E with
  | zero => intro g0 i; simp
  | succ E ih =>
    intro g0 i
    rw [List.range_succ, List.foldl_append]
    simp only [List.foldl_cons, List.foldl_nil]
    by_cases hiE : i = E
    · subst hiE
      rw [Function.update_same, if_pos (Nat.lt_succ_self i)]
    · rw [Function.update_noteq hiE, ih]
      by_cases hlt : i < E
      · rw [if_pos hlt, if_pos (Nat.lt_succ_of_lt hlt)]
      · rw [if_neg hlt, if_neg (by omega)]

/-- Value and gradient of the course-accuracy loop. -/
lemma course_loop_spec (w_c : ℚ) (cdata ns : ℕ → ℚ) (E : ℕ) (g0 : ℕ → ℚ) :
    (List.range E).foldl (courseStep w_c cdata ns true) (0, g0)
      = (∑ i ∈ Finset.range E, loss (ns i - cdata i),
         (List.range E).foldl
           (fun g i => Function.update g i (w_c * 2 * (ns i - cdata i))) g0) := by
  rw [foldl_pair (courseStep w_c cdata ns true)
      (fun i => loss (ns i - cdata i))
      (fun g i => Function.update g i (w_c * 2 * (ns i - cdata i)))
      (fun e g a => rfl) (List.range E) 0 g0,
    list_range_map_sum, zero_add]

/-- Gradient update function of the node loop. -/
def nodeGradStep (w_s : ℚ) (ns : ℕ → ℚ) (g : ℕ → ℚ) (n : Node) : ℕ → ℚ :=
  if nodeActive n then
    accumList id (-(w_s * 2 * nodeDiff ns n)) n.out_edges
      (accumList id (w_s * 2 * nodeDiff ns n) n.inp_edges g)
  else g

/-- Gradient contribution of one node at one index: the signed imbalance
term counted with multiplicity over the node's edge lists. -/
def nodeGradContrib (w_s : ℚ) (ns : ℕ → ℚ) (n : Node) (i : ℕ) : ℚ :=
  if nodeActive n then
    w_s * 2 * nodeDiff ns n
      * ((n.inp_edges.countP (fun x => x == i) : ℚ)
        - (n.out_edges.countP (fun x => x == i) : ℚ))
  else 0

lemma nodeGradStep_apply (w_s : ℚ) (ns : ℕ → ℚ) :
    ∀ (g : ℕ → ℚ) (n : Node) (i : ℕ),
      nodeGradStep w_s ns g n i = g i + nodeGradContrib w_s ns n i := by
  intro g n i
  by_cases hn : nodeActive n
  · simp only [nodeGradStep, nodeGradContrib, hn, if_pos, if_true]
    rw [accumList_apply, accumList_apply]
    simp only [id_eq]
    ring
  · simp [nodeGradStep, nodeGradContrib, hn]

/-- Value and gradient of the node loop. -/
lemma node_loop_spec (w_s : ℚ) (ns : ℕ → ℚ) (nodes : List Node) (g1 : ℕ → ℚ) :
    nodes.foldl (nodeStep w_s ns true) (0, g1)
      = ((nodes.map (fun n => if nodeActive n then loss |nodeDiff ns n| else 0)).sum,
         nodes.foldl (nodeGradStep w_s ns) g1) := by
  rw [foldl_pair (nodeStep w_s ns true)
      (fun n => if nodeActive n then loss |nodeDiff ns n| else 0)
      (nodeGradStep w_s ns) ?_ nodes 0 g1, zero_add]
  intro e g n
  by_cases hn : nodeActive n
  · simp [nodeStep, nodeGradStep, hn]
  · simp [nodeStep, nodeGradStep, hn]

/-- C2: on a caller-zeroed gradient of width `E`, the global objective
returns `Ec·w_c + Es·w_s` with `Ec` the squared course error and `Es` the
squared imbalance summed over exactly the active simple nodes, and each
gradient entry is the accuracy term plus the signed per-occurrence node
contributions. -/
theorem global_sampling_spec (w_c w_s : ℚ) (cdata ns : ℕ → ℚ) (E : ℕ)
    (nodes : List Node)
    (hidx : ∀ n ∈ nodes, ∀ j ∈ n.inp_edges ++ n.out_edges, j < E) :
    (global_sampling w_c w_s cdata E nodes ns (fun _ => 0) true).1
      = (∑ i ∈ Finset.range E, (ns i - cdata i) ^ 2) * w_c
        + (nodes.map (fun n => if nodeActive n then (nodeDiff ns n) ^ 2 else 0)).sum
            * w_s
    ∧ ∀ i < E, (global_sampling w_c w_s cdata E nodes ns (fun _ => 0) true).2 i
      = w_c * 2 * (ns i - cdata i)
        + (nodes.map (fun n => nodeGradContrib w_s ns n i)).sum := by
  have hcourse := course_loop_spec w_c cdata ns E (fun _ => 0)
  have hval : ∀ n : Node,
      (if nodeActive n then loss |nodeDiff ns n| else 0)
        = (if nodeActive n then (nodeDiff ns n) ^ 2 else 0) := by
    intro n
    by_cases hn : nodeActive n
    · simp [hn, loss, abs_mul_abs_self, sq]
    · simp [hn]
  constructor
  · show (global_sampling w_c w_s cdata E nodes ns (fun _ => 0) true).1 = _
    rw [global_sampling]
    simp only [hcourse, node_loop_spec]
    congr 1
    · congr 1
      exact Finset.sum_congr rfl (fun i _ => by rw [loss_eq_sq])
    · congr 1
      exact congrArg List.sum (List.map_congr_left (fun n _ => hval n))
  · intro i hiE
    show (global_sampling w_c w_s cdata E nodes ns (fun _ => 0) true).2 i = _
    rw [global_sampling]
    simp only [hcourse, node_loop_spec]
    rw [foldl_addfun (nodeGradStep w_s ns) (nodeGradContrib w_s ns)
        (nodeGradStep_apply w_s ns) nodes _ i,
      course_grad_apply (fun i => w_c * 2 * (ns i - cdata i)) E (fun _ => 0) i,
      if_pos hiE]

/-- Concrete instance of the C2 claim: two edges feeding one simple node. -/
theorem global_sampling_spec_witness :
    (∀ n ∈ [(⟨0, true, [0], [1]⟩ : Node)], ∀ j ∈ n.inp_edges ++ n.out_edges, j < 2)
    ∧ ((global_sampling 1 (1/2) (fun _ => 0) 2 [(⟨0, true, [0], [1]⟩ : Node)]
          (fun i => (i : ℚ) + 3) (fun _ => 0) true).1
        = (∑ i ∈ Finset.range 2, ((i : ℚ) + 3 - 0) ^ 2) * 1
          + ([(⟨0, true, [0], [1]⟩ : Node)].map (fun n =>
              if nodeActive n then (nodeDiff (fun i => (i : ℚ) + 3) n) ^ 2 else 0)).sum
              * (1/2)
      ∧ ∀ i < 2, (global_sampling 1 (1/2) (fun _ => 0) 2 [(⟨0, true, [0], [1]⟩ : Node)]
          (fun i => (i : ℚ) + 3) (fun _ => 0) true).2 i
        = 1 * 2 * ((i : ℚ) + 3 - 0)
          + ([(⟨0, true, [0], [1]⟩ : Node)].map (fun n =>
              nodeGradContrib (1/2) (fun i => (i : ℚ) + 3) n i)).sum) :=
  ⟨by decide,
   global_sampling_spec 1 (1/2) (fun _ => 0) (fun i => (i : ℚ) + 3) 2
     [(⟨0, true, [0], [1]⟩ : Node)] (by decide)⟩

/-! ### Global constraint functions -/

/-- Sum of pointwise negations. -/
lemma map_neg_sum {α : Type} (f : α → ℚ) :
    ∀ l : List α, (l.map (fun x => -(f x))).sum = -((l.map f).sum) := by
  intro l
  induction l with
  | nil => simp
  | cons a t ih => simp [ih]; ring

/-- Sum of an indicator list: `c` for every element mapped onto `j`. -/
lemma sum_indicator_count (A : ℕ → ℕ) (c : ℚ) :
    ∀ (l : List ℕ) (j : ℕ),
      (l.map (fun x => if A x = j then c else 0)).sum
        = c * (l.countP (fun x => A x == j) : ℚ) := by
  intro l
  induction l with
  | nil => intro j; simp
  | cons p t ih =>
    intro j
    rw [List.map_cons, List.sum_cons, ih, List.countP_cons]
    by_cases h : A p = j
    · have hb : (A p == j) = true := by simp [h]
      simp only [h, if_pos, if_true, hb, beq_self_eq_true]
      push_cast
      ring
    · have hb : (A p == j) = false := by simp [h]
      simp [h, hb]

/-- Interface equality constraint `global_interface_constraint`: value is
inputs minus outputs; gradient entries are overwritten to `1` on inputs
then `-1` on outputs. -/
def global_interface_constraint (node : Node) (ns grad0 : ℕ → ℚ)
    (hasGrad : Bool) : ℚ × (ℕ → ℚ) :=
  let p1 := node.inp_edges.foldl
    (fun (p : ℚ × (ℕ → ℚ)) idx =>
      (p.1 + ns idx, if hasGrad then Function.update p.2 idx 1 else p.2))
    (0, grad0)
  node.out_edges.foldl
    (fun (p : ℚ × (ℕ → ℚ)) idx =>
      (p.1 - ns idx, if hasGrad then Function.update p.2 idx (-1) else p.2))
    p1

/-- Upper range constraint `global_urange_constraint`: value
`ns[inp] - ns[out]·w`; gradient entries are incremented, not overwritten. -/
def global_urange_constraint (wdata : ℕ → ℚ) (node : Node) (ns grad0 : ℕ → ℚ)
    (hasGrad : Bool) : ℚ × (ℕ → ℚ) :=
  let res := ns node.inp - ns node.out * wdata node.index
  let g1 := if hasGrad
    then Function.update grad0 node.inp (grad0 node.inp + 1) else grad0
  let g2 := if hasGrad
    then Function.update g1 node.out (g1 node.out - wdata node.index) else g1
  (res, g2)

/-- Lower range constraint `global_lrange_constraint`: value
`ns[out]·iw - ns[inp]`; gradient entries are incremented, not overwritten. -/
def global_lrange_constraint (iwdata : ℕ → ℚ) (node : Node) (ns grad0 : ℕ → ℚ)
    (hasGrad : Bool) : ℚ × (ℕ → ℚ) :=
  let res := ns node.out * iwdata node.index - ns node.inp
  let g1 := if hasGrad
    then Function.update grad0 node.inp (grad0 node.inp - 1) else grad0
  let g2 := if hasGrad
    then Function.update g1 node.out (g1 node.out + iwdata node.index) else g1
  (res, g2)

/-- Alias inequality constraint `global_alias_constraint` in reduced
coordinates: value `min_bound - Σ pos + Σ neg`; reduced gradient entries
are decremented on `pos` terms and incremented on `neg` terms. -/
def global_alias_constraint (A : ℕ → ℕ) (al : VarAlias) (rns rgrad0 : ℕ → ℚ)
    (hasGrad : Bool) : ℚ × (ℕ → ℚ) :=
  let p1 := al.pos.foldl
    (fun (p : ℚ × (ℕ → ℚ)) idx =>
      (p.1 - rns (A idx),
       if hasGrad then Function.update p.2 (A idx) (p.2 (A idx) - 1) else p.2))
    (al.min_bound, rgrad0)
  al.neg.foldl
    (fun (p : ℚ × (ℕ → ℚ)) idx =>
      (p.1 + rns (A idx),
       if hasGrad then Function.update p.2 (A idx) (p.2 (A idx) + 1) else p.2))
    p1

/-- Closed form of the interface constraint with gradient. -/
lemma global_interface_constraint_eq (node : Node) (ns g0 : ℕ → ℚ) :
    global_interface_constraint node ns g0 true
      = ((node.inp_edges.map ns).sum - (node.out_edges.map ns).sum,
         setList (-1) node.out_edges (setList 1 node.inp_edges g0)) := by
  rw [global_interface_constraint]
  rw [foldl_pair _ ns (fun g idx => Function.update g idx 1)
      (fun e g a => by simp) node.inp_edges 0 g0]
  rw [foldl_pair _ (fun idx => -(ns idx)) (fun g idx => Function.update g idx (-1))
      (fun e g a => by simp [sub_eq_add_neg]) node.out_edges _ _]
  rw [map_neg_sum]
  refine Prod.ext ?_ rfl
  simp
  ring

/-- Pointwise effect of the decrementing loop of the alias constraint. -/
lemma alias_grad_dec_apply (A : ℕ → ℕ) (l : List ℕ) (g : ℕ → ℚ) (j : ℕ) :
    l.foldl (fun g idx => Function.update g (A idx) (g (A idx) - 1)) g j
      = g j - (l.countP (fun x => A x == j) : ℚ) := by
  rw [foldl_addfun (fun g idx => Function.update g (A idx) (g (A idx) - 1))
      (fun idx j => if A idx = j then -1 else 0) ?_ l g j,
    sum_indicator_count]
  · ring
  · intro g idx j
    dsimp only
    by_cases h : A idx = j
    · subst h; rw [Function.update_same, if_pos rfl]; ring
    · rw [Function.update_noteq (fun hh => h hh.symm), if_neg h, add_zero]

/-- Pointwise effect of the incrementing loop of the alias constraint. -/
lemma alias_grad_inc_apply (A : ℕ → ℕ) (l : List ℕ) (g : ℕ → ℚ) (j : ℕ) :
    l.foldl (fun g idx => Function.update g (A idx) (g (A idx) + 1)) g j
      = g j + (l.countP (fun x => A x == j) : ℚ) := by
  rw [foldl_addfun (fun g idx => Function.update g (A idx) (g (A idx) + 1))
      (fun idx j => if A idx = j then 1 else 0) ?_ l g j,
    sum_indicator_count]
  · ring
  · intro g idx j
    dsimp only
    by_cases h : A idx = j
    · subst h; rw [Function.update_same, if_pos rfl]
    · rw [Function.update_noteq (fun hh => h hh.symm), if_neg h, add_zero]

/-- Gradient of the alias constraint: signed occurrence counts added onto
the incoming array. -/
lemma global_alias_constraint_grad (A : ℕ → ℕ) (al : VarAlias)
    (rns g0 : ℕ → ℚ) (j : ℕ) :
    (global_alias_constraint A al rns g0 true).2 j
      = g0 j - (al.pos.countP (fun x => A x == j) : ℚ)
        + (al.neg.countP (fun x => A x == j) : ℚ) := by
  rw [global_alias_constraint]
  rw [foldl_pair _ (fun idx => -(rns (A idx)))
      (fun g idx => Function.update g (A idx) (g (A idx) - 1))
      (fun e g a => by simp [sub_eq_add_neg]) al.pos al.min_bound g0]
  rw [foldl_pair _ (fun idx => rns (A idx))
      (fun g idx => Function.update g (A idx) (g (A idx) + 1))
      (fun e g a => by simp) al.neg _ _]
  show (al.neg.foldl _ (al.pos.foldl _ g0)) j = _
  rw [alias_grad_inc_apply, alias_grad_dec_apply]

/-- C3 counterexample: the upper-range constraint does not overwrite the
gradient; starting from an all-5 array the in-edge entry ends at 6, not at
the overwritten value 1 that the claim states. -/
theorem constraint_overwrite_cex :
    (global_urange_constraint (fun _ => 3) ⟨0, true, [0], [1]⟩
        (fun _ => 0) (fun _ => 5) true).2 0 = 6
    ∧ ((6 : ℚ) ≠ 1) := by
  constructor
  · simp only [global_urange_constraint, Node.inp, Node.out, if_true]
    norm_num [Function.update_apply]
  · norm_num

/-- C3 amended: the interface constraint overwrites its touched gradient
entries (outputs, written last, win over inputs); the upper/lower range and
alias constraints instead accumulate onto the incoming gradient array:
`+1`/`-w` on in/out for the upper range, `-1`/`+iw` for the lower range,
and signed occurrence counts (in reduced coordinates) for the alias
inequality. -/
theorem constraint_gradient_spec :
    (∀ (node : Node) (ns g0 : ℕ → ℚ) (i : ℕ),
      (global_interface_constraint node ns g0 true).2 i
        = if i ∈ node.out_edges then -1
          else if i ∈ node.inp_edges then 1 else g0 i)
    ∧ (∀ (wdata : ℕ → ℚ) (node : Node) (ns g0 : ℕ → ℚ), node.inp ≠ node.out →
      (global_urange_constraint wdata node ns g0 true).2 node.inp
          = g0 node.inp + 1
      ∧ (global_urange_constraint wdata node ns g0 true).2 node.out
          = g0 node.out - wdata node.index)
    ∧ (∀ (iwdata : ℕ → ℚ) (node : Node) (ns g0 : ℕ → ℚ), node.inp ≠ node.out →
      (global_lrange_constraint iwdata node ns g0 true).2 node.inp
          = g0 node.inp - 1
      ∧ (global_lrange_constraint iwdata node ns g0 true).2 node.out
          = g0 node.out + iwdata node.index)
    ∧ (∀ (A : ℕ → ℕ) (al : VarAlias) (rns g0 : ℕ → ℚ) (j : ℕ),
      (global_alias_constraint A al rns g0 true).2 j
        = g0 j - (al.pos.countP (fun x => A x == j) : ℚ)
          + (al.neg.countP (fun x => A x == j) : ℚ)) := by
  refine ⟨?_, ?_, ?_, ?_⟩
  · intro node ns g0 i
    rw [global_interface_constraint_eq]
    show setList (-1) node.out_edges (setList 1 node.inp_edges g0) i = _
    rw [setList_apply, setList_apply]
  · intro wdata node ns g0 hio
    constructor
    · show (Function.update (Function.update g0 node.inp (g0 node.inp + 1))
        node.out ((Function.update g0 node.inp (g0 node.inp + 1)) node.out
          - wdata node.index)) node.inp = _
      rw [Function.update_noteq hio, Function.update_same]
    · show (Function.update (Function.update g0 node.inp (g0 node.inp + 1))
        node.out ((Function.update g0 node.inp (g0 node.inp + 1)) node.out
          - wdata node.index)) node.out = _
      rw [Function.update_same,
        Function.update_noteq (fun h => hio h.symm)]
  · intro iwdata node ns g0 hio
    constructor
    · show (Function.update (Function.update g0 node.inp (g0 node.inp - 1))
        node.out ((Function.update g0 node.inp (g0 node.inp - 1)) node.out
          + iwdata node.index)) node.inp = _
      rw [Function.update_noteq hio, Function.update_same]
    · show (Function.update (Function.update g0 node.inp (g0 node.inp - 1))
        node.out ((Function.update g0 node.inp (g0 node.inp - 1)) node.out
          + iwdata node.index)) node.out = _
      rw [Function.update_same,
        Function.update_noteq (fun h => hio h.symm)]
  · exact global_alias_constraint_grad

/-- Concrete instance of the amended C3 statement on small inputs. -/
theorem constraint_gradient_spec_witness :
    ((global_interface_constraint ⟨0, false, [0], [1]⟩ (fun _ => 0)
        (fun _ => 5) true).2 0
      = if 0 ∈ [1] then -1 else if 0 ∈ [0] then 1 else (5 : ℚ))
    ∧ ((global_urange_constraint (fun _ => 3) ⟨0, true, [0], [1]⟩
          (fun _ => 0) (fun _ => 5) true).2 (Node.inp ⟨0, true, [0], [1]⟩)
        = (5 : ℚ) + 1)
    ∧ ((global_lrange_constraint (fun _ => 3) ⟨0, true, [0], [1]⟩
          (fun _ => 0) (fun _ => 5) true).2 (Node.inp ⟨0, true, [0], [1]⟩)
        = (5 : ℚ) - 1)
    ∧ ((global_alias_constraint id ⟨2, [0, 1], [3], 0⟩ (fun _ => 0)
          (fun _ => 5) true).2 0
        = (5 : ℚ) - (([0, 1] : List ℕ).countP (fun x => id x == 0) : ℚ)
          + (([3] : List ℕ).countP (fun x => id x == 0) : ℚ)) := by
  refine ⟨?_, ?_, ?_, ?_⟩
  · exact constraint_gradient_spec.1 ⟨0, false, [0], [1]⟩ (fun _ => 0) (fun _ => 5) 0
  · exact ((constraint_gradient_spec.2.1 (fun _ => 3) ⟨0, true, [0], [1]⟩
      (fun _ => 0) (fun _ => 5) (by decide)).1)
  · exact ((constraint_gradient_spec.2.2.1 (fun _ => 3) ⟨0, true, [0], [1]⟩
      (fun _ => 0) (fun _ => 5) (by decide)).1)
  · exact constraint_gradient_spec.2.2.2 id ⟨2, [0, 1], [3], 0⟩
      (fun _ => 0) (fun _ => 5) 0

/-! ### Shortrow objective (sr_sampling.cpp) -/

/-- Simplicity kernel between two adjacent positions `i0`, `i1`.  In L2
mode the gradient entries are accumulated; in L1 mode the C++ assigns
(`=`) rather than accumulates, which this embedding reproduces. -/
def simplicity (simpL2 : Bool) (w_s : ℚ) (ns grad : ℕ → ℚ) (hasGrad : Bool)
    (i0 i1 : ℕ) : ℚ × (ℕ → ℚ) :=
  let diff := ns i0 - ns i1
  if simpL2 then
    (loss diff,
     if hasGrad then
       Function.update (Function.update grad i0 (grad i0 + w_s * 2 * diff)) i1
         ((Function.update grad i0 (grad i0 + w_s * 2 * diff)) i1 - w_s * 2 * diff)
     else grad)
  else
    let sign : ℚ := if diff ≥ 0 then 1 else -1
    (sign * diff,
     if hasGrad then
       Function.update (Function.update grad i0 (w_s * sign)) i1 (-(w_s * sign))
     else grad)

/-- Shortrow objective `rs_sampling`: wale accuracy plus adjacent
simplicity (plus the circular wrap-around pair), threading the value pair
`(Ew, Es)` and the gradient array through the sample loop. -/
def rs_sampling (simpL2 circular : Bool) (w_w w_s : ℚ) (cdata : ℕ → ℚ)
    (N : ℕ) (ns grad0 : ℕ → ℚ) (hasGrad : Bool) : ℚ × (ℕ → ℚ) :=
  let st := (List.range N).foldl (fun (st : ℚ × ℚ × (ℕ → ℚ)) i =>
    let diff := ns i - cdata i
    let Ew := st.1 + loss diff
    let g1 := if hasGrad
      then Function.update st.2.2 i (st.2.2 i + w_w * 2 * diff) else st.2.2
    if 0 < i then
      let p := simplicity simpL2 w_s ns g1 hasGrad i (i - 1)
      (Ew, st.2.1 + p.1, p.2)
    else (Ew, st.2.1, g1)) (0, 0, grad0)
  let st2 := if circular then
      let p := simplicity simpL2 w_s ns st.2.2 hasGrad 0 (N - 1)
      (st.1, st.2.1 + p.1, p.2)
    else st
  (st2.1 * w_w + st2.2.1 * w_s, st2.2.2)

/-- C4: with L1 simplicity the code overwrites the gradient entries of each
adjacent pair instead of accumulating them; at `N = 2`, `x = (5, 3)`,
`c = 0`, `w_w = 1`, `w_s = 1/10`, the final `grad[0]` is `1/10`, while the
claimed additive accumulation (the true gradient of the returned value)
would give `1·2·(5−0) + 1/10 = 101/10`. -/
theorem rs_sampling_l1_overwrite_bug :
    (rs_sampling false false 1 (1/10) (fun _ => 0) 2
        (fun i => if i = 0 then 5 else 3) (fun _ => 0) true).2 0 = 1/10
    ∧ ((1 : ℚ)/10 ≠ 1 * 2 * ((5 : ℚ) - 0) + 1/10) := by
  constructor
  · show (rs_sampling false false 1 (1/10) (fun _ => 0) 2
        (fun i => if i = 0 then 5 else 3) (fun _ => 0) true).2 0 = 1/10
    norm_num [rs_sampling, simplicity, loss, List.range_succ,
      Function.update_apply]
  · norm_num

/-! ### Finite-difference gradient checker (get_gradient_error) -/

/-- Shape of an objective/constraint callback: maps the input vector, the
incoming gradient array and the has-gradient flag to the value and the
final gradient array. -/
def VFunc : Type := (ℕ → ℚ) → (ℕ → ℚ) → Bool → ℚ × (ℕ → ℚ)

/-- Body of the checker loop for one coordinate: perturb the working copy
up and down by `eps`, restore it, and fold the per-coordinate error into
the running maximum. -/
def ggeStep (ns : ℕ → ℚ) (f : VFunc) (eps : ℚ) (relative : Bool)
    (st : ℚ × (ℕ → ℚ)) (i : ℕ) : ℚ × (ℕ → ℚ) :=
  let grad_ana := (f ns (fun _ => 0) true).2
  let nsd1 := Function.update st.2 i (ns i + eps)
  let f_p := (f nsd1 (fun _ => 0) false).1
  let nsd2 := Function.update nsd1 i (ns i - eps)
  let f_n := (f nsd2 (fun _ => 0) false).1
  let nsd3 := Function.update nsd2 i (ns i)
  let grad_num := (f_p - f_n) / (2 * eps)
  let abs_err := |grad_ana i - grad_num|
  let err := if relative
    then (if grad_ana i > 1/100000000 then abs_err / grad_ana i else abs_err)
    else abs_err
  (max st.1 err, nsd3)

/-- Finite-difference gradient checker `get_gradient_error`: compare the
analytic gradient of `f` at `ns` against central differences over the
first `C` coordinates (`C` is the module's `cdata` size), taking the
maximum error, relative or absolute. -/
def get_gradient_error (C : ℕ) (ns : ℕ → ℚ) (f : VFunc) (eps : ℚ)
    (relative : Bool) : ℚ :=
  ((List.range C).foldl (ggeStep ns f eps relative) (0, ns)).1

/-- Per-coordinate checker error in closed form. -/
def grad_err_at (ns : ℕ → ℚ) (f : VFunc) (eps : ℚ) (relative : Bool)
    (i : ℕ) : ℚ :=
  let ana := (f ns (fun _ => 0) true).2 i
  let gnum := ((f (Function.update ns i (ns i + eps)) (fun _ => 0) false).1
    - (f (Function.update ns i (ns i - eps)) (fun _ => 0) false).1) / (2 * eps)
  let abs_err := |ana - gnum|
  if relative then (if ana > 1/100000000 then abs_err / ana else abs_err)
  else abs_err

/-- The checker formula the claim states: relative error divided by the
floored absolute analytic gradient.  Modelled from the spec sentence for
comparison with the code's behaviour. -/
def gradient_error_relative_claim (C : ℕ) (ns : ℕ → ℚ) (f : VFunc)
    (eps : ℚ) : ℚ :=
  ((List.range C).map (fun i =>
    |(f ns (fun _ => 0) true).2 i
      - ((f (Function.update ns i (ns i + eps)) (fun _ => 0) false).1
        - (f (Function.update ns i (ns i - eps)) (fun _ => 0) false).1)
          / (2 * eps)|
      / max |(f ns (fun _ => 0) true).2 i| (1/100000000))).foldl max 0

/-- One checker step at an already-restored working copy produces the
closed-form per-coordinate error and restores the copy again. -/
lemma ggeStep_at_ns (ns : ℕ → ℚ) (f : VFunc) (eps : ℚ) (relative : Bool)
    (m : ℚ) (i : ℕ) :
    ggeStep ns f eps relative (m, ns) i
      = (max m (grad_err_at ns f eps relative i), ns) := by
  rw [ggeStep, grad_err_at]
  simp only [Function.update_idem, Function.update_eq_self]

/-- C5 amended: the checker loop computes the running maximum of the
per-coordinate errors, where the relative error divides by the signed
analytic entry when it exceeds `1e-8` and otherwise falls back to the
absolute error. -/
theorem get_gradient_error_spec (C : ℕ) (ns : ℕ → ℚ) (f : VFunc) (eps : ℚ)
    (relative : Bool) :
    get_gradient_error C ns f eps relative
      = ((List.range C).map (grad_err_at ns f eps relative)).foldl max 0 := by
  rw [get_gradient_error, List.foldl_map]
  have hloop : ∀ (l : List ℕ) (m : ℚ),
      l.foldl (ggeStep ns f eps relative) (m, ns)
        = (l.foldl (fun m i => max m (grad_err_at ns f eps relative i)) m, ns) := by
    intro l
    induction l with
    | nil => intro m; rfl
    | cons i t ih =>
      intro m
      rw [List.foldl_cons, ggeStep_at_ns, ih, List.foldl_cons]
  rw [hloop]

/-- C5 counterexample: for the callback with constant analytic gradient
`-2` on the objective `x ↦ -x₀`, the code returns the absolute error `1`
(the negative analytic entry fails the `> 1e-8` test), while the claimed
formula `|ana − num| / max(|ana|, 1e-8)` gives `1/2`. -/
theorem gradient_error_cex :
    get_gradient_error 1 (fun _ => 0)
        (fun v _ _ => (-(v 0), fun _ => -2)) 1 true = 1
    ∧ gradient_error_relative_claim 1 (fun _ => 0)
        (fun v _ _ => (-(v 0), fun _ => -2)) 1 = 1/2
    ∧ (1 : ℚ) ≠ 1/2 := by
  refine ⟨?_, ?_, by norm_num⟩
  · norm_num [get_gradient_error, ggeStep, List.range_succ,
      Function.update_same]
  · norm_num [gradient_error_relative_claim, List.range_succ,
      Function.update_same]

/-! ### Global solve: bound derivation and alias bound recording -/

/-- Lower-bound accumulation of `solve`: the running minimum starts at
`1e3` and folds `floor(c·0.5)` over the course data, then is floored at 2. -/
def solve_min_bound (cdata : List ℚ) : ℚ :=
  max 2 (cdata.foldl (fun m v => min m ((⌊v * 0.5⌋ : ℤ) : ℚ)) 1000)

/-- Upper-bound accumulation of `solve`: the running maximum starts at `2`
and folds `ceil(c·2)` over the course data. -/
def solve_max_bound (cdata : List ℚ) : ℚ :=
  cdata.foldl (fun m v => max m ((⌈v * 2⌉ : ℤ) : ℚ)) 2

/-- Constraint-registration loop of `solve` restricted to its effect on the
alias table: every alias that carries a constraint records the derived
lower bound as its `min_bound`. -/
def record_alias_bounds (aliases : List VarAlias) (mb : ℚ) : List VarAlias :=
  aliases.map (fun a => if a.has_constraint then { a with min_bound := mb } else a)

/-- Factoring the initial accumulator out of a min-fold. -/
lemma foldl_min_factor (f : ℚ → ℚ) :
    ∀ (l : List ℚ) (c a : ℚ),
      l.foldl (fun m x => min m (f x)) (min c a)
        = min c (l.foldl (fun m x => min m (f x)) a) := by
  intro l
  induction l with
  | nil => intro c a; rfl
  | cons y t ih =>
    intro c a
    rw [List.foldl_cons, List.foldl_cons, min_assoc, ih]

/-- Factoring the initial accumulator out of a max-fold. -/
lemma foldl_max_factor (f : ℚ → ℚ) :
    ∀ (l : List ℚ) (c a : ℚ),
      l.foldl (fun m x => max m (f x)) (max c a)
        = max c (l.foldl (fun m x => max m (f x)) a) := by
  intro l
  induction l with
  | nil => intro c a; rfl
  | cons y t ih =>
    intro c a
    rw [List.foldl_cons, List.foldl_cons, max_assoc, ih]

/-- C6 counterexample: with course data `[2002]` the code's lower bound is
capped by the `1e3` starting accumulator at `1000`, while the claimed
formula `max(2, min_i floor(c_i·0.5))` gives `1001`. -/
theorem global_bounds_cex :
    solve_min_bound [2002] = 1000
    ∧ max 2 ((⌊(2002 : ℚ) * 0.5⌋ : ℤ) : ℚ) = 1001
    ∧ (1000 : ℚ) ≠ 1001 := by
  refine ⟨?_, ?_, by norm_num⟩
  · have hf : ((⌊(2002 : ℚ) * 0.5⌋ : ℤ) : ℚ) = 1001 := by
      norm_num
    simp only [solve_min_bound, List.foldl_cons, List.foldl_nil, hf]
    norm_num
  · norm_num

/-- C6 amended: for non-empty course data the derived lower bound is
`max(2, min(1e3, min_i floor(c_i·0.5)))` — the code's `1e3` starting
accumulator caps the minimum — the upper bound is
`max(2, max_i ceil(c_i·2))`, and every constrained alias records the
derived lower bound as its `min_bound`. -/
theorem global_bounds_spec (v : ℚ) (rest : List ℚ) :
    solve_min_bound (v :: rest)
      = max 2 (min 1000
          (rest.foldl (fun m x => min m ((⌊x * 0.5⌋ : ℤ) : ℚ)) ((⌊v * 0.5⌋ : ℤ) : ℚ)))
    ∧ solve_max_bound (v :: rest)
      = max 2 (rest.foldl (fun m x => max m ((⌈x * 2⌉ : ℤ) : ℚ)) ((⌈v * 2⌉ : ℤ) : ℚ))
    ∧ ∀ aliases : List VarAlias,
        ∀ a ∈ record_alias_bounds aliases (solve_min_bound (v :: rest)),
          a.has_constraint = true → a.min_bound = solve_min_bound (v :: rest) := by
  refine ⟨?_, ?_, ?_⟩
  · rw [solve_min_bound, List.foldl_cons,
      show (min (1000 : ℚ) ((⌊v * 0.5⌋ : ℤ) : ℚ))
        = min 1000 ((⌊v * 0.5⌋ : ℤ) : ℚ) from rfl,
      foldl_min_factor (fun x => ((⌊x * 0.5⌋ : ℤ) : ℚ)) rest 1000]
  · rw [solve_max_bound, List.foldl_cons,
      foldl_max_factor (fun x => ((⌈x * 2⌉ : ℤ) : ℚ)) rest 2]
  · intro aliases a ha hc
    rw [record_alias_bounds] at ha
    obtain ⟨b, _, hb⟩ := List.mem_map.mp ha
    by_cases hbc : b.has_constraint
    · rw [if_pos hbc] at hb
      rw [← hb]
    · rw [if_neg hbc] at hb
      rw [← hb] at hc
      exact absurd hc hbc

/-- Concrete instance of the amended C6 statement: course data `[10, 6]`
and one constrained alias. -/
theorem global_bounds_spec_witness :
    ((⟨2, [0, 1], [3, 4], solve_min_bound (10 :: [6])⟩ : VarAlias) ∈
        record_alias_bounds [⟨2, [0, 1], [3, 4], 7⟩] (solve_min_bound (10 :: [6])))
    ∧ (⟨2, [0, 1], [3, 4], solve_min_bound (10 :: [6])⟩ : VarAlias).has_constraint
        = true
    ∧ (⟨2, [0, 1], [3, 4], solve_min_bound (10 :: [6])⟩ : VarAlias).min_bound
        = solve_min_bound (10 :: [6]) := by
  have hc : (⟨2, [0, 1], [3, 4], (7 : ℚ)⟩ : VarAlias).has_constraint = true := by
    decide
  have hmem : (⟨2, [0, 1], [3, 4], solve_min_bound (10 :: [6])⟩ : VarAlias) ∈
      record_alias_bounds [⟨2, [0, 1], [3, 4], 7⟩] (solve_min_bound (10 :: [6])) := by
    rw [record_alias_bounds, List.map_cons, List.map_nil, if_pos hc]
    exact List.mem_singleton.mpr rfl
  refine ⟨hmem, by decide, ?_⟩
  exact (global_bounds_spec 10 [6]).2.2 [⟨2, [0, 1], [3, 4], 7⟩] _ hmem (by decide)

/-! ### Aliasing reducer (compute_aliases) -/

/-- Numeric values of the `AliasingLevel` enum. -/
def aliasingNONE : ℕ := 0

def aliasingTRIVIAL : ℕ := 1

def aliasingBASIC : ℕ := 2

def aliasingCOMPLEX : ℕ := 3

/-- Decision taken by the aliasing pass for one node (assuming the node is
processed): the written slot together with the new `pos` list and the
suffix appended to `neg`, or `none` when the node is skipped. -/
def nodeWrite (level : ℕ) (n : Node) : Option (ℕ × List ℕ × List ℕ) :=
  if ¬ n.has_interface_constraint then none
  else if n.inp_edges.length = 1 ∧ n.out_edges.length = 1 then
    some (n.out_edges.headD 0, n.inp_edges, [])
  else if n.inp_edges.length = 1 ∨ n.out_edges.length = 1 then
    if level < aliasingBASIC then none
    else if n.inp_edges.length = 1 then
      some (n.inp_edges.headD 0, n.out_edges, [])
    else some (n.out_edges.headD 0, n.inp_edges, [])
  else if level = aliasingCOMPLEX then
    some (n.out_edges.headD 0, n.inp_edges, n.out_edges.tail)
  else none

/-- Slot targeted by a node's aliasing decision. -/
def slotOf (level : ℕ) (n : Node) : Option ℕ :=
  (nodeWrite level n).map (fun w => w.1)

/-- State of the aliasing pass: the alias table and the per-node reduced
marks. -/
structure AliasCompSt where
  aliases : ℕ → VarAlias
  reduced : ℕ → Bool

/-- One iteration of the node loop of `compute_aliases`: skip nodes already
reduced or without a decision; otherwise assign `pos`, push onto `neg`,
and mark the node reduced. -/
def caStep (level : ℕ) (st : AliasCompSt) (n : Node) : AliasCompSt :=
  if st.reduced n.index then st
  else match nodeWrite level n with
    | none => st
    | some (s, p, ng) =>
      { aliases := Function.update st.aliases s
          { st.aliases s with pos := p, neg := (st.aliases s).neg ++ ng },
        reduced := Function.update st.reduced n.index true }

/-- The aliasing pass `compute_aliases`: reset the alias table and reduced
marks, return immediately at level NONE, otherwise run the node loop. -/
def compute_aliases (level : ℕ) (nodes : List Node) : AliasCompSt :=
  if level = aliasingNONE then
    { aliases := initAlias, reduced := fun _ => false }
  else nodes.foldl (caStep level) { aliases := initAlias, reduced := fun _ => false }

/-- Nodes that never target slot `s` leave it unchanged. -/
lemma caStep_foldl_aliases_untouched (level s : ℕ) :
    ∀ (l : List Node) (st : AliasCompSt),
      (∀ m ∈ l, slotOf level m ≠ some s) →
      (l.foldl (caStep level) st).aliases s = st.aliases s := by
  intro l
  induction l with
  | nil => intro st _; rfl
  | cons m t ih =>
    intro st hl
    rw [List.foldl_cons, ih _ (fun q hq => hl q (List.mem_cons_of_mem m hq))]
    rw [caStep]
    by_cases hr : st.reduced m.index
    · rw [if_pos hr]
    · rw [if_neg hr]
      cases hw : nodeWrite level m with
      | none => rfl
      | some w =>
        obtain ⟨s1, p, ng⟩ := w
        have hs1 : s1 ≠ s := by
          intro hss
          exact hl m (List.mem_cons_self m t) (by rw [slotOf, hw, hss]; rfl)
        show (Function.update st.aliases s1 _) s = st.aliases s
        rw [Function.update_noteq (fun hh => hs1 hh.symm)]

/-- Nodes with a different index leave a reduced mark unchanged. -/
lemma caStep_foldl_reduced_untouched (level j : ℕ) :
    ∀ (l : List Node) (st : AliasCompSt),
      (∀ m ∈ l, m.index ≠ j) →
      (l.foldl (caStep level) st).reduced j = st.reduced j := by
  intro l
  induction l with
  | nil => intro st _; rfl
  | cons m t ih =>
    intro st hl
    rw [List.foldl_cons, ih _ (fun q hq => hl q (List.mem_cons_of_mem m hq))]
    rw [caStep]
    by_cases hr : st.reduced m.index
    · rw [if_pos hr]
    · rw [if_neg hr]
      cases hw : nodeWrite level m with
      | none => rfl
      | some w =>
        obtain ⟨s1, p, ng⟩ := w
        show (Function.update st.reduced m.index true) j = st.reduced j
        rw [Function.update_noteq
          (fun hh => hl m (List.mem_cons_self m t) hh.symm)]

/-- C7 counterexample: at level COMPLEX a 2-inputs/2-outputs node produces
the alias `{pos: in, neg: out[1..]}` on its first output, but that alias
has a single negative term, so `has_constraint` is `false`, not `true`. -/
theorem compute_aliases_complex_cex :
    ((compute_aliases 3 [⟨0, false, [0, 1], [2, 3]⟩]).aliases 2).pos = [0, 1]
    ∧ ((compute_aliases 3 [⟨0, false, [0, 1], [2, 3]⟩]).aliases 2).neg = [3]
    ∧ ((compute_aliases 3 [⟨0, false, [0, 1], [2, 3]⟩]).aliases 2).has_constraint
        = false := by
  refine ⟨?_, ?_, ?_⟩ <;> decide

/-- C7 amended: at level COMPLEX, a node with an active interface
constraint and more than one input and output — not already reduced and
the only node targeting its first output slot — produces the alias
`{pos: in-edges, neg: out-edges minus the first}` at its first output, and
that alias has `has_constraint = true` exactly when the node has more than
two out-edges (`|neg| = |out| − 1 > 1`). -/
theorem compute_aliases_complex_spec (nodes : List Node) (n : Node)
    (hmem : n ∈ nodes)
    (hdist : nodes.Pairwise (fun a b => a.index ≠ b.index))
    (hic : n.has_interface_constraint = true)
    (hin : 1 < n.inp_edges.length)
    (hout : 1 < n.out_edges.length)
    (hslot : ∀ m ∈ nodes, slotOf 3 m = some (n.out_edges.headD 0) → m = n) :
    ((compute_aliases 3 nodes).aliases (n.out_edges.headD 0)).pos = n.inp_edges
    ∧ ((compute_aliases 3 nodes).aliases (n.out_edges.headD 0)).neg
        = n.out_edges.tail
    ∧ (((compute_aliases 3 nodes).aliases (n.out_edges.headD 0)).has_constraint
          = true
        ↔ 2 < n.out_edges.length) := by
  have hnw : nodeWrite 3 n
      = some (n.out_edges.headD 0, n.inp_edges, n.out_edges.tail) := by
    rw [nodeWrite, if_neg (by simp [hic]), if_neg (by omega), if_neg (by omega),
      if_pos (show (3 : ℕ) = aliasingCOMPLEX from rfl)]
  obtain ⟨l1, l2, rfl⟩ := List.append_of_mem hmem
  rw [List.pairwise_append] at hdist
  obtain ⟨hp1, hp2, hcross⟩ := hdist
  rw [List.pairwise_cons] at hp2
  obtain ⟨hn2, _⟩ := hp2
  have hnotl1 : ∀ m ∈ l1, m.index ≠ n.index :=
    fun m hm => hcross m hm n (List.mem_cons_self n l2)
  have hnotl2 : ∀ m ∈ l2, m.index ≠ n.index :=
    fun m hm h => (hn2 m hm) h.symm
  have hnl1 : n ∉ l1 := fun h => (hnotl1 n h) rfl
  have hnl2 : n ∉ l2 := fun h => (hnotl2 n h) rfl
  have havoid1 : ∀ m ∈ l1, slotOf 3 m ≠ some (n.out_edges.headD 0) := by
    intro m hm hcon
    have hmn := hslot m (List.mem_append_left _ hm) hcon
    subst hmn
    exact hnl1 hm
  have havoid2 : ∀ m ∈ l2, slotOf 3 m ≠ some (n.out_edges.headD 0) := by
    intro m hm hcon
    have hmn := hslot m (List.mem_append_right _ (List.mem_cons_of_mem n hm)) hcon
    subst hmn
    exact hnl2 hm
  rw [compute_aliases, if_neg (by decide), List.foldl_append, List.foldl_cons]
  set st1 := l1.foldl (caStep 3)
    ({ aliases := initAlias, reduced := fun _ => false } : AliasCompSt) with hst1
  have hred1 : st1.reduced n.index = false := by
    rw [hst1, caStep_foldl_reduced_untouched 3 n.index l1 _ hnotl1]
  have hal1 : st1.aliases (n.out_edges.headD 0) = initAlias (n.out_edges.headD 0) := by
    rw [hst1, caStep_foldl_aliases_untouched 3 _ l1 _ havoid1]
  have hstep : caStep 3 st1 n
      = { aliases := Function.update st1.aliases (n.out_edges.headD 0)
            { st1.aliases (n.out_edges.headD 0) with
                pos := n.inp_edges,
                neg := (st1.aliases (n.out_edges.headD 0)).neg ++ n.out_edges.tail },
          reduced := Function.update st1.reduced n.index true } := by
    rw [caStep, if_neg (by simp [hred1]), hnw]
  rw [hstep, caStep_foldl_aliases_untouched 3 _ l2 _ havoid2]
  simp only [hal1, initAlias, Function.update_same, List.nil_append]
  refine ⟨trivial, trivial, ?_⟩
  rw [VarAlias.has_constraint]
  simp only [decide_eq_true_eq, List.length_tail]
  omega

/-- Concrete instance of the amended C7 statement: one 2-to-3 node whose
alias does carry a constraint. -/
theorem compute_aliases_complex_spec_witness :
    ((⟨0, false, [0, 1], [2, 3, 4]⟩ : Node) ∈ [(⟨0, false, [0, 1], [2, 3, 4]⟩ : Node)]
      ∧ ([(⟨0, false, [0, 1], [2, 3, 4]⟩ : Node)]).Pairwise (fun a b => a.index ≠ b.index)
      ∧ (⟨0, false, [0, 1], [2, 3, 4]⟩ : Node).has_interface_constraint = true)
    ∧ (((compute_aliases 3 [(⟨0, false, [0, 1], [2, 3, 4]⟩ : Node)]).aliases
          ((⟨0, false, [0, 1], [2, 3, 4]⟩ : Node).out_edges.headD 0)).pos
        = (⟨0, false, [0, 1], [2, 3, 4]⟩ : Node).inp_edges
      ∧ ((compute_aliases 3 [(⟨0, false, [0, 1], [2, 3, 4]⟩ : Node)]).aliases
          ((⟨0, false, [0, 1], [2, 3, 4]⟩ : Node).out_edges.headD 0)).neg
        = (⟨0, false, [0, 1], [2, 3, 4]⟩ : Node).out_edges.tail
      ∧ (((compute_aliases 3 [(⟨0, false, [0, 1], [2, 3, 4]⟩ : Node)]).aliases
            ((⟨0, false, [0, 1], [2, 3, 4]⟩ : Node).out_edges.headD 0)).has_constraint
            = true
          ↔ 2 < (⟨0, false, [0, 1], [2, 3, 4]⟩ : Node).out_edges.length)) :=
  ⟨⟨by decide, by decide, by decide⟩,
   compute_aliases_complex_spec [(⟨0, false, [0, 1], [2, 3, 4]⟩ : Node)]
     (⟨0, false, [0, 1], [2, 3, 4]⟩ : Node)
     (by decide) (by decide) (by decide) (by decide) (by decide) (by decide)⟩

/-! ### Solver driver configuration (max_eval defaults, initial points) -/

/-- Stopping-criterion configuration handed to the optimizer. -/
structure OptStop where
  ftol_rel : ℚ
  maxeval : ℕ
  maxtime : ℚ
deriving DecidableEq

/-- Shared stop-configuration logic of the three `solve` functions: apply a
user override when non-zero, otherwise fall back (for `maxeval`) to the
variant's hard-coded default. -/
def configure_stops (default_eval : ℕ) (main_ftol_rel : ℚ) (max_eval : ℕ)
    (max_time : ℚ) : OptStop :=
  { ftol_rel := if main_ftol_rel ≠ 0 then main_ftol_rel else 0,
    maxeval := if max_eval ≠ 0 then max_eval else default_eval,
    maxtime := if max_time ≠ 0 then max_time else 0 }

/-- Stop configuration of the global solver's `solve` (default cap 1e3). -/
def global_solve_stops (mfr : ℚ) (me : ℕ) (mt : ℚ) : OptStop :=
  configure_stops 1000 mfr me mt

/-- Stop configuration of the local solver's `solve` (default cap 1e3). -/
def local_solve_stops (mfr : ℚ) (me : ℕ) (mt : ℚ) : OptStop :=
  configure_stops 1000 mfr me mt

/-- Stop configuration of the shortrow solver's `solve` (default cap 1e2). -/
def rs_solve_stops (mfr : ℚ) (me : ℕ) (mt : ℚ) : OptStop :=
  configure_stops 100 mfr me mt

/-- C8 counterexample: with `max_eval = 0` the shortrow solver caps
evaluations at `1e2`, not the claimed `1e3`. -/
theorem default_max_eval_cex :
    (rs_solve_stops 0 0 0).maxeval = 100 ∧ (100 : ℕ) ≠ 1000 :=
  ⟨rfl, by decide⟩

/-- C8 amended: with `max_eval = 0` the global and local solvers apply the
default evaluation cap `1e3`, while the shortrow solver applies `1e2`; a
non-zero `max_eval` is passed through unchanged everywhere. -/
theorem default_max_eval_spec (mfr : ℚ) (mt : ℚ) :
    ((global_solve_stops mfr 0 mt).maxeval = 1000
      ∧ (local_solve_stops mfr 0 mt).maxeval = 1000
      ∧ (rs_solve_stops mfr 0 mt).maxeval = 100)
    ∧ ∀ me : ℕ, me ≠ 0 →
        ((global_solve_stops mfr me mt).maxeval = me
          ∧ (local_solve_stops mfr me mt).maxeval = me
          ∧ (rs_solve_stops mfr me mt).maxeval = me) := by
  refine ⟨⟨rfl, rfl, rfl⟩, ?_⟩
  intro me hme
  refine ⟨?_, ?_, ?_⟩ <;>
    simp [global_solve_stops, local_solve_stops, rs_solve_stops,
      configure_stops, hme]

/-- Concrete instance of the amended C8 statement at `max_eval = 7`. -/
theorem default_max_eval_spec_witness :
    ((7 : ℕ) ≠ 0)
    ∧ ((global_solve_stops 0 7 0).maxeval = 7
      ∧ (local_solve_stops 0 7 0).maxeval = 7
      ∧ (rs_solve_stops 0 7 0).maxeval = 7) :=
  ⟨by decide, (default_max_eval_spec 0 0).2 7 (by decide)⟩

/-- Initial point of the global solver's `solve`: the course data itself;
only the optional Gaussian perturbation is clipped to the scalar bounds. -/
def global_initial (cdata : ℕ → ℚ) (gaussian : Bool) (noise : ℕ → ℚ)
    (minB maxB : ℚ) : ℕ → ℚ := fun i =>
  if gaussian then max minB (min maxB (cdata i + noise i)) else cdata i

/-- Per-position lower bound of the local solver (intersection of the two
shaping boxes around the fixed endpoints). -/
def local_bounds_min (ns_start ns_end iF : ℚ) (nvar i : ℕ) : ℚ :=
  max (max 2 (ns_start * iF ^ (i + 1))) (max 2 (ns_end * iF ^ (nvar - i)))

/-- Per-position upper bound of the local solver. -/
def local_bounds_max (ns_start ns_end F : ℚ) (nvar i : ℕ) : ℚ :=
  min (min 10000 (ns_start * F ^ (i + 1))) (min 10000 (ns_end * F ^ (nvar - i)))

/-- Clipping of one course value into the local per-position box, written
as the code's if-chain. -/
def local_initial_entry (cdata lmin lmax : ℕ → ℚ) (i : ℕ) : ℚ :=
  if cdata i < lmin i then lmin i
  else if lmax i < cdata i then lmax i
  else cdata i

/-- Initial point of the local solver's `solve`: clipped course data, with
optional Gaussian perturbation clipped to the same per-position bounds. -/
def local_initial (cdata : ℕ → ℚ) (gaussian : Bool) (noise lmin lmax : ℕ → ℚ) :
    ℕ → ℚ := fun i =>
  if gaussian then
    max (lmin i) (min (lmax i) (local_initial_entry cdata lmin lmax i + noise i))
  else local_initial_entry cdata lmin lmax i

/-- Initial point of the shortrow solver's `solve`: non-negative part of
the course data, with optional non-negative Gaussian perturbation. -/
def sr_initial (cdata : ℕ → ℚ) (gaussian : Bool) (noise : ℕ → ℚ) : ℕ → ℚ :=
  fun i =>
  if gaussian then max 0 (max 0 (cdata i) + noise i) else max 0 (cdata i)

/-- C9 counterexample: with noise off, the global solver hands the
optimizer the course value `1` unclipped, although the derived lower bound
for `cdata = [1]` is `2`; the claimed clipped initial point would be `2`. -/
theorem global_initial_cex :
    global_initial (fun _ => 1) false (fun _ => 0)
        (solve_min_bound [1]) (solve_max_bound [1]) 0 = 1
    ∧ solve_min_bound [1] = 2
    ∧ max (solve_min_bound [1]) (min (solve_max_bound [1]) 1) = 2
    ∧ (1 : ℚ) ≠ 2 := by
  have hmin : solve_min_bound [1] = 2 := by
    have hf : ((⌊(1 : ℚ) * 0.5⌋ : ℤ) : ℚ) = 0 := by norm_num
    simp only [solve_min_bound, List.foldl_cons, List.foldl_nil, hf]
    norm_num
  have hmax : solve_max_bound [1] = 2 := by
    have hc : ((⌈(1 : ℚ) * 2⌉ : ℤ) : ℚ) = 2 := by norm_num
    simp only [solve_max_bound, List.foldl_cons, List.foldl_nil, hc]
    norm_num
  refine ⟨rfl, hmin, ?_, by norm_num⟩
  rw [hmin, hmax]
  norm_num

/-- C9 amended: with `gaussian_start = false` the shortrow initial point is
`max(0, c_i)` and the local initial point is `c_i` clipped into its
per-position box, as claimed; the global initial point however is exactly
`c_i`, unclipped. -/
theorem initial_point_spec :
    (∀ (cdata noise : ℕ → ℚ) (mb Mb : ℚ) (i : ℕ),
      global_initial cdata false noise mb Mb i = cdata i)
    ∧ (∀ (cdata noise lmin lmax : ℕ → ℚ) (i : ℕ), lmin i ≤ lmax i →
      local_initial cdata false noise lmin lmax i
        = max (lmin i) (min (lmax i) (cdata i)))
    ∧ (∀ (cdata noise : ℕ → ℚ) (i : ℕ),
      sr_initial cdata false noise i = max 0 (cdata i)) := by
  refine ⟨fun cdata noise mb Mb i => rfl, ?_, fun cdata noise i => rfl⟩
  intro cdata noise lmin lmax i h
  rw [local_initial, if_neg (by simp), local_initial_entry]
  by_cases h1 : cdata i < lmin i
  · rw [if_pos h1, min_eq_right (le_trans (le_of_lt h1) h),
      max_eq_left (le_of_lt h1)]
  · rw [if_neg h1]
    by_cases h2 : lmax i < cdata i
    · rw [if_pos h2, min_eq_left (le_of_lt h2), max_eq_right h]
    · rw [if_neg h2, min_eq_right (not_lt.mp h2), max_eq_right (not_lt.mp h1)]

/-- Concrete instance of the amended C9 statement. -/
theorem initial_point_spec_witness :
    global_initial (fun _ => 1) false (fun _ => 0) 2 9 0 = (1 : ℚ)
    ∧ ((fun _ => (2 : ℚ)) 0 ≤ (fun _ => (9 : ℚ)) 0
      ∧ local_initial (fun _ => 1) false (fun _ => 0) (fun _ => 2) (fun _ => 9) 0
        = max ((fun _ => (2 : ℚ)) 0) (min ((fun _ => (9 : ℚ)) 0) ((fun _ => (1 : ℚ)) 0)))
    ∧ sr_initial (fun _ => -3) false (fun _ => 0) 0 = max 0 ((fun _ => (-3 : ℚ)) 0) :=
  ⟨initial_point_spec.1 (fun _ => 1) (fun _ => 0) 2 9 0,
   ⟨by norm_num,
    initial_point_spec.2.1 (fun _ => 1) (fun _ => 0) (fun _ => 2) (fun _ => 9) 0
      (by norm_num)⟩,
   initial_point_spec.2.2 (fun _ => -3) (fun _ => 0) 0⟩

/-! ### Local solver state machine (local_sampling.cpp): shaping invariant -/

/-- Module state of the local solver: the static variables of the
translation unit (static storage is zero-initialized except where the C++
gives explicit initializers). -/
structure LocalSolverState where
  cdata : List ℚ
  ns_start : ℚ
  ns_end : ℚ
  F : ℚ
  iF : ℚ
  w_c : ℚ
  w_s : ℚ
  verbose : Bool
  use_constraints : Bool
  main_algo : ℤ
  local_algo : ℤ
  main_ftol_rel : ℚ
  max_eval : ℕ
  max_time : ℚ
  local_ftol_rel : ℚ
  constraint_tol : ℚ
  seed : ℕ
  gaussian_start : Bool
  nvars : List ℚ
  objval : ℚ

/-- Initial state of the local solver module: `F = 2`, `iF = 0.5`, the
other statics as initialized in the source (`AUGLAG`/`LD_LBFGS` are kept
abstract as their enum codes `36`/`11`). -/
def init_local_state : LocalSolverState :=
  { cdata := [], ns_start := 0, ns_end := 0, F := 2, iF := 1/2,
    w_c := 1, w_s := 1/10, verbose := false, use_constraints := true,
    main_algo := 36, local_algo := 11, main_ftol_rel := 0, max_eval := 1000,
    max_time := 0, local_ftol_rel := 1/1000, constraint_tol := 1/10,
    seed := 3735928559, gaussian_start := false, nvars := [], objval := 0 }

/-- Operations on the local solver module: every exported setter, the
lifecycle functions, and `solve` abstracted by the optimizer's output. -/
inductive LocalOp where
  | reset : LocalOp
  | allocate (n : ℕ) : LocalOp
  | set_cdata (idx : ℕ) (v : ℚ) : LocalOp
  | set_ns_start (v : ℚ) : LocalOp
  | set_ns_end (v : ℚ) : LocalOp
  | set_shaping (v : ℚ) : LocalOp
  | set_weights (wc ws : ℚ) : LocalOp
  | set_seed (s : ℕ) : LocalOp
  | use_noise (b : Bool) : LocalOp
  | set_verbose (b : Bool) : LocalOp
  | set_use_constraints (b : Bool) : LocalOp
  | set_main_algorithm (a : ℤ) : LocalOp
  | set_local_algorithm (a : ℤ) : LocalOp
  | set_max_eval (n : ℕ) : LocalOp
  | set_max_time (t : ℚ) : LocalOp
  | set_main_ftol_rel (t : ℚ) : LocalOp
  | set_local_ftol_rel (t : ℚ) : LocalOp
  | set_constraint_tol (t : ℚ) : LocalOp
  | solve (result : List ℚ × ℚ) : LocalOp

/-- Transition function: effect of each operation on the module state.
`set_shaping` clamps its argument into `[1.01, 2.0]` and stores the
reciprocal; no other operation touches `F` or `iF`. -/
def applyOp (st : LocalSolverState) (op : LocalOp) : LocalSolverState :=
  match op with
  | .reset => { st with nvars := [], cdata := [] }
  | .allocate n => { st with nvars := List.replicate n 0,
                             cdata := List.replicate n 0 }
  | .set_cdata idx v => { st with cdata := st.cdata.set idx v }
  | .set_ns_start v => { st with ns_start := v }
  | .set_ns_end v => { st with ns_end := v }
  | .set_shaping v => { st with F := max (101/100) (min 2 v),
                                iF := 1 / max (101/100) (min 2 v) }
  | .set_weights wc ws => { st with w_c := wc, w_s := ws }
  | .set_seed s => { st with seed := s }
  | .use_noise b => { st with gaussian_start := b }
  | .set_verbose b => { st with verbose := b }
  | .set_use_constraints b => { st with use_constraints := b }
  | .set_main_algorithm a => { st with main_algo := a }
  | .set_local_algorithm a => { st with local_algo := a }
  | .set_max_eval n => { st with max_eval := n }
  | .set_max_time t => { st with max_time := t }
  | .set_main_ftol_rel t => { st with main_ftol_rel := t }
  | .set_local_ftol_rel t => { st with local_ftol_rel := t }
  | .set_constraint_tol t => { st with constraint_tol := t }
  | .solve r => { st with nvars := r.1, objval := r.2 }

/-- The shaping invariant: `F ∈ [1.01, 2]` and `iF = 1/F`. -/
def shapingInv (st : LocalSolverState) : Prop :=
  (101/100 : ℚ) ≤ st.F ∧ st.F ≤ 2 ∧ st.iF = 1 / st.F

/-- Every operation preserves the shaping invariant. -/
lemma applyOp_shapingInv (st : LocalSolverState) (op : LocalOp)
    (h : shapingInv st) : shapingInv (applyOp st op) := by
  cases op with
  | set_shaping v =>
    refine ⟨le_max_left _ _, ?_, rfl⟩
    exact max_le (by norm_num) (min_le_left _ _)
  | reset => exact h
  | allocate n => exact h
  | set_cdata idx v => exact h
  | set_ns_start v => exact h
  | set_ns_end v => exact h
  | set_weights wc ws => exact h
  | set_seed s => exact h
  | use_noise b => exact h
  | set_verbose b => exact h
  | set_use_constraints b => exact h
  | set_main_algorithm a => exact h
  | set_local_algorithm a => exact h
  | set_max_eval n => exact h
  | set_max_time t => exact h
  | set_main_ftol_rel t => exact h
  | set_local_ftol_rel t => exact h
  | set_constraint_tol t => exact h
  | solve r => exact h

/-- C10: in every reachable state of the local solver module the shaping
factor satisfies `1.01 ≤ F ≤ 2` and `iF = 1/F`: the initial state
`F = 2, iF = 0.5` satisfies it, `set_shaping` clamps its argument into
`[1.01, 2]` before storing (never rejecting), and no other operation
writes `F` or `iF`. -/
theorem local_shaping_invariant (ops : List LocalOp) (v : ℚ) :
    ((101/100 : ℚ) ≤ (ops.foldl applyOp init_local_state).F
      ∧ (ops.foldl applyOp init_local_state).F ≤ 2
      ∧ (ops.foldl applyOp init_local_state).iF
          = 1 / (ops.foldl applyOp init_local_state).F)
    ∧ (∀ st : LocalSolverState,
        (applyOp st (LocalOp.set_shaping v)).F = max (101/100) (min 2 v)
        ∧ (applyOp st (LocalOp.set_shaping v)).iF
            = 1 / max (101/100) (min 2 v)) := by
  constructor
  · have hinit : shapingInv init_local_state := by
      refine ⟨by norm_num [init_local_state], by norm_num [init_local_state],
        by norm_num [init_local_state]⟩
    have hfold : ∀ (l : List LocalOp) (st : LocalSolverState),
        shapingInv st → shapingInv (l.foldl applyOp st) := by
      intro l
      induction l with
      | nil => intro st h; exact h
      | cons op t ih =>
        intro st h
        exact ih _ (applyOp_shapingInv st op h)
    exact hfold ops init_local_state hinit
  · intro st
    exact ⟨rfl, rfl⟩

end Knit
